import Mathlib

/-!
Shallow embedding of the CACTUS research-paper summarization pipeline
(`Cactus-Communication.ipynb`): text cleaning (`clean_text`), keyword-driven
section segmentation (`split_into_sections`), and the hybrid summarizer
(`HybridSummarizer.extractive_summary`, `HybridSummarizer.summarize_sections`,
`HybridSummarizer.summarization_strategy`).

External library calls (nltk `sent_tokenize`, spaCy sentence splitting,
sklearn `TfidfVectorizer`, the BART abstractive model, the `re` passes that
only strip bibliographic metadata) are modelled as explicit function
parameters; the repository's own logic is translated line by line.
-/

/-- Python's `needle in haystack` substring test on strings: `needle` occurs
contiguously somewhere in `hay`. -/
def containsSubstr (needle hay : String) : Bool :=
  (List.range (hay.toList.length + 1)).any
    (fun i => needle.toList.isPrefixOf (hay.toList.drop i))

/-- Python `str.lower()` (ASCII range, which is all the keyword matching
needs): lower-case every character. -/
def strToLower (s : String) : String :=
  String.mk (s.toList.map Char.toLower)

/-! ## Text cleaner (`clean_text`) -/

/-- Python regex `\s` on the characters the pipeline can see: ASCII
whitespace plus the Latin-1 whitespace code points Python's Unicode `\s`
also matches. -/
def isPySpace (c : Char) : Bool :=
  c.toNat = 32 || (9 ≤ c.toNat && c.toNat ≤ 13) ||
  (28 ≤ c.toNat && c.toNat ≤ 31) || c.toNat = 133 || c.toNat = 160

/-- The character class kept by the final substitution pass of `clean_text`,
`[a-zA-Z0-9.,!?;:()\s]`. -/
def isAllowedChar (c : Char) : Bool :=
  ('a' ≤ c && c ≤ 'z') || ('A' ≤ c && c ≤ 'Z') || ('0' ≤ c && c ≤ '9') ||
  c = '.' || c = ',' || c = '!' || c = '?' || c = ';' || c = ':' ||
  c = '(' || c = ')' || isPySpace c

/-- The final substitution pass of `clean_text`:
`re.sub(r'[^a-zA-Z0-9.,!?;:()\s]', '', text)` deletes every character
outside the allowed class. -/
def removeDisallowed (s : String) : String :=
  String.mk (s.toList.filter isAllowedChar)

/-- Python `str.strip()`: drop leading and trailing whitespace. -/
def pyStrip (s : String) : String :=
  String.mk (((s.toList.dropWhile isPySpace).reverse.dropWhile isPySpace).reverse)

/-- `clean_text`: the five leading `re.sub` passes (journal metadata,
`Volume/Issue`, `ISO`, bracketed citations, parenthetical citations) only
delete metadata substrings and are abstracted as the parameter `metaPasses`
(theorems below quantify over every such function, so they hold in
particular for the real regex passes); then the final character-class
substitution runs, and the result is stripped. -/
def clean_text (metaPasses : String → String) (text : String) : String :=
  pyStrip (removeDisallowed (metaPasses text))

/-! ## Section segmenter (`split_into_sections`) -/

/-- The `section_headers` dict of `split_into_sections`, in Python's
insertion (= declared) order. -/
def section_headers : List (String × List String) :=
  [("Title", ["title"]),
   ("Abstract", ["abstract"]),
   ("Introduction", ["introduction"]),
   ("Methods", ["methods", "methodology", "materials & methods"]),
   ("Results", ["results", "findings"]),
   ("Discussion", ["discussion", "analysis"]),
   ("Conclusion", ["conclusion", "summary", "final thoughts"])]

/-- The seven fixed section names, in declared order. -/
def sectionKeys : List String := section_headers.map Prod.fst

/-- `any(keyword in sentence.lower() for keyword in keywords)` for one
`(section, keywords)` entry. -/
def sectionMatches (sentence : String) (p : String × List String) : Bool :=
  p.2.any (fun kw => containsSubstr kw (strToLower sentence))

/-- The inner `for section, keywords in section_headers.items(): ... break`
loop: the first section (in declared order) whose keyword list matches the
lower-cased sentence, if any. -/
def matchSection (sentence : String) : Option String :=
  (section_headers.find? (sectionMatches sentence)).map Prod.fst

/-- `sections[k] += ...` on an association-list representation of the
Python dict: rewrite the value at key `k`, leave all other keys alone. -/
def updateAssoc (m : List (String × String)) (k : String) (f : String → String) :
    List (String × String) :=
  m.map (fun p => if p.1 = k then (p.1, f p.2) else p)

/-- The sentence loop of `split_into_sections`: `cur` is the
`current_section` cursor, `acc` the accumulated section dict. Each sentence
moves the cursor to its first matching section (or leaves it unchanged) and
is appended, plus a trailing space, to the cursor's bucket. -/
def splitGo (cur : String) (acc : List (String × String)) :
    List String → List (String × String)
  | [] => acc
  | s :: rest =>
      let c := (matchSection s).getD cur
      splitGo c (updateAssoc acc c (fun t => t ++ s ++ " ")) rest

/-- `split_into_sections`, from the tokenized sentence sequence onward
(`sent_tokenize` is the external nltk tokenizer, so the function is modelled
on its output): start with all seven buckets empty and the cursor at
`"Title"`, then run the sentence loop. -/
def split_into_sections (sentences : List String) : List (String × String) :=
  splitGo "Title" (section_headers.map (fun p => (p.1, ""))) sentences

/-- Analysis helper: the sequence of (assigned section, sentence) pairs the
sentence loop produces, starting from cursor `cur`. -/
def assignGo (cur : String) : List String → List (String × String)
  | [] => []
  | s :: rest =>
      let c := (matchSection s).getD cur
      (c, s) :: assignGo c rest

/-- Analysis helper: assignment of each sentence of the input to its
section, with the cursor initialized to `"Title"` as in
`split_into_sections`. -/
def assignments (sentences : List String) : List (String × String) :=
  assignGo "Title" sentences

/-- Analysis helper: the text bucket `k` accumulates from an assignment
sequence: the sentences assigned to `k`, in order, each followed by the
trailing space the loop appends. -/
def bucketStr (k : String) : List (String × String) → String
  | [] => ""
  | p :: rest => if p.1 = k then p.2 ++ " " ++ bucketStr k rest else bucketStr k rest

/-- Concatenation of all section-map values in declared section order. -/
def concatSections (m : List (String × String)) : String :=
  String.join (m.map Prod.snd)

/-- The last character of `s` is a space. -/
def endsWithSpace (s : String) : Bool :=
  s.toList.getLast? = some ' '

/-! ## Summarizer (`HybridSummarizer`) -/

/-- The two summarization strategies the dispatch table chooses between. -/
inductive Strategy where
  | extractive
  | abstractive
  deriving DecidableEq, Repr

/-- `self.summarization_strategy`: the fixed section-name → strategy dict,
in Python insertion order. -/
def summarization_strategy : List (String × Strategy) :=
  [("Methods", Strategy.extractive),
   ("Results", Strategy.extractive),
   ("Introduction", Strategy.abstractive),
   ("Discussion", Strategy.abstractive),
   ("Conclusion", Strategy.abstractive)]

/-- `self.summarization_strategy.get(section, self.extractive_summary)`:
look the section name up in the dispatch table, defaulting to the
extractive strategy. -/
def strategyFor (sec : String) : Strategy :=
  ((summarization_strategy.find? (fun p => p.1 = sec)).map Prod.snd).getD
    Strategy.extractive

/-- Modelled from the spec: the `InsufficientContentError` the extractive
path raises when a section's text is below the minimum required for
vectorization (the class itself does not appear in `src/`; sklearn's
empty-vocabulary `ValueError` plays its role at run time). -/
inductive SumError where
  | insufficientContent
  deriving DecidableEq, Repr

/-- The index selection of `extractive_summary`:
`sorted(range(len(sentence_scores)), key=..., reverse=True)[:max_sentences]`.
Python's `sorted` is a stable sort and `reverse=True` keeps equal keys in
original order, which is exactly `mergeSort` with the reflexive-total
relation "score at `i` is at least score at `j`". -/
def topIndices (scores : List ℚ) (maxSentences : Nat) : List Nat :=
  ((List.range scores.length).mergeSort
    (fun i j => decide (scores.getD j 0 ≤ scores.getD i 0))).take maxSentences

/-- The final reordering of `extractive_summary`:
`sorted(top_sentence_indices)`, ascending by original position. -/
def selIndices (scores : List ℚ) (maxSentences : Nat) : List Nat :=
  (topIndices scores maxSentences).mergeSort (fun i j => decide (i ≤ j))

/-- `HybridSummarizer.extractive_summary`. The spaCy sentence splitter
(`self.nlp(text).sents`) is the parameter `sentTok`; the sklearn
`TfidfVectorizer` pipeline producing one total score per sentence
(`tfidf_matrix.sum(axis=1)`), which can fail on insufficient content, is
the parameter `tfidf`. The repository's own logic — rank indices by score
descending, keep the top `maxSentences`, re-sort the kept indices by
original position, join the corresponding sentences with single spaces —
is translated directly. -/
def extractive_summary (sentTok : String → List String)
    (tfidf : List String → Except SumError (List ℚ))
    (text : String) (maxSentences : Nat) : Except SumError String :=
  let sentences := sentTok text
  (tfidf sentences).map (fun scores =>
    String.intercalate " "
      ((selIndices scores maxSentences).map (fun i => sentences.getD i "")))

/-- `HybridSummarizer.summarize_sections`: iterate over the section dict in
order; skip sections whose stripped content is empty (Python truthiness of
`content.strip()`); dispatch the rest through `strategyFor`. The two bound
methods of the dispatch are the parameters `extr` and `abst`; the loop has
no exception handler, so an error from either strategy propagates out and
aborts the whole traversal. -/
def summarize_sections (extr abst : String → Except SumError String) :
    List (String × String) → Except SumError (List (String × String))
  | [] => Except.ok []
  | (sec, content) :: rest =>
      if pyStrip content = "" then
        summarize_sections extr abst rest
      else
        match (match strategyFor sec with
               | Strategy.extractive => extr content
               | Strategy.abstractive => abst content) with
        | Except.error e => Except.error e
        | Except.ok s =>
            (summarize_sections extr abst rest).map
              (fun m => (sec, s) :: m)

/-! ## Lemmas about the segmenter -/

theorem updateAssoc_map_fst (m : List (String × String)) (k : String)
    (f : String → String) : (updateAssoc m k f).map Prod.fst = m.map Prod.fst := by
  induction m with
  | nil => rfl
  | cons p rest ih =>
      simp only [updateAssoc, List.map_cons] at *
      by_cases h : p.1 = k <;> simp [h, ih]

theorem lookup_updateAssoc (m : List (String × String)) (k k' : String)
    (f : String → String) :
    List.lookup k' (updateAssoc m k f) =
      if k' = k then (List.lookup k' m).map f else List.lookup k' m := by
  induction m with
  | nil => simp [updateAssoc]
  | cons p rest ih =>
      obtain ⟨a, b⟩ := p
      simp only [updateAssoc, List.map_cons] at *
      by_cases hak : a = k
      · subst hak
        by_cases hk' : k' = a
        · subst hk'
          simp [List.lookup_cons]
        · simp [List.lookup_cons, beq_eq_false_iff_ne.mpr hk', ih, hk']
      · by_cases hk' : k' = a
        · subst hk'
          simp [hak, List.lookup_cons, Ne.symm hak]
        · simp [hak, List.lookup_cons, beq_eq_false_iff_ne.mpr hk', ih]

theorem splitGo_lookup (sents : List String) :
    ∀ (cur : String) (acc : List (String × String)) (k : String),
    List.lookup k (splitGo cur acc sents) =
      (List.lookup k acc).map (fun t => t ++ bucketStr k (assignGo cur sents)) := by
  induction sents with
  | nil =>
      intro cur acc k
      simp only [splitGo, assignGo, bucketStr]
      cases List.lookup k acc <;> simp
  | cons s rest ih =>
      intro cur acc k
      simp only [splitGo, assignGo]
      rw [ih, lookup_updateAssoc]
      by_cases hk : k = (matchSection s).getD cur
      · simp only [if_pos hk, bucketStr, if_pos hk.symm, Option.map_map]
        cases List.lookup k acc <;>
          simp [Function.comp, String.append_assoc]
      · have : ¬ ((matchSection s).getD cur = k) := fun h => hk h.symm
        simp only [if_neg hk, bucketStr, if_neg this]

theorem assignGo_map_snd (sents : List String) :
    ∀ cur, (assignGo cur sents).map Prod.snd = sents := by
  induction sents with
  | nil => intro cur; rfl
  | cons s rest ih => intro cur; simp [assignGo, ih]

theorem matchSection_mem_keys {s k : String} (h : matchSection s = some k) :
    k ∈ sectionKeys := by
  simp only [matchSection, Option.map_eq_some'] at h
  obtain ⟨p, hp, rfl⟩ := h
  exact List.mem_map_of_mem Prod.fst (List.mem_of_find?_eq_some hp)

theorem assignGo_fst_mem (sents : List String) :
    ∀ cur, cur ∈ sectionKeys → ∀ p ∈ assignGo cur sents, p.1 ∈ sectionKeys := by
  induction sents with
  | nil => intro cur _ p hp; simp [assignGo] at hp
  | cons s rest ih =>
      intro cur hcur p hp
      have hc : (matchSection s).getD cur ∈ sectionKeys := by
        cases hm : matchSection s with
        | none => simpa using hcur
        | some k => simpa using matchSection_mem_keys hm
      simp only [assignGo, List.mem_cons] at hp
      rcases hp with rfl | hp
      · exact hc
      · exact ih _ hc p hp

theorem splitGo_map_fst (sents : List String) :
    ∀ cur acc, (splitGo cur acc sents).map Prod.fst = acc.map Prod.fst := by
  induction sents with
  | nil => intro cur acc; rfl
  | cons s rest ih =>
      intro cur acc
      simp only [splitGo]
      rw [ih, updateAssoc_map_fst]

theorem endsWithSpace_append (t : String) : endsWithSpace (t ++ " ") = true := by
  simp only [endsWithSpace]
  have : (t ++ " ").toList = t.toList ++ [' '] := by
    simp [String.toList]
  rw [this, List.getLast?_concat]
  decide

theorem splitGo_endsWithSpace (sents : List String) :
    ∀ cur acc, (∀ p ∈ acc, p.2 = "" ∨ endsWithSpace p.2 = true) →
    ∀ p ∈ splitGo cur acc sents, p.2 = "" ∨ endsWithSpace p.2 = true := by
  induction sents with
  | nil => intro cur acc hacc p hp; exact hacc p hp
  | cons s rest ih =>
      intro cur acc hacc p hp
      refine ih _ _ ?_ p hp
      intro q hq
      simp only [updateAssoc, List.mem_map] at hq
      obtain ⟨r, hr, hrq⟩ := hq
      by_cases h : r.1 = (matchSection s).getD cur
      · right
        rw [if_pos h] at hrq
        rw [← hrq]
        exact endsWithSpace_append _
      · rw [if_neg h] at hrq
        exact hrq ▸ hacc r hr

theorem join_aux (l : List String) :
    ∀ a : String, l.foldl (fun r s => r ++ s) a = a ++ String.join l := by
  induction l with
  | nil => intro a; simp [String.join]
  | cons b l ih =>
      intro a
      have hb : String.join (b :: l) = b ++ String.join l := by
        simp only [String.join, List.foldl]
        rw [ih ("" ++ b), String.empty_append]
        rfl
      simp only [List.foldl]
      rw [ih (a ++ b), hb, String.append_assoc]

theorem join_cons (a : String) (l : List String) :
    String.join (a :: l) = a ++ String.join l := by
  simp only [String.join, List.foldl]
  rw [join_aux l ("" ++ a), String.empty_append]
  rfl

theorem assignGo_of_no_match (sentences : List String) :
    ∀ cur, (∀ s ∈ sentences, matchSection s = none) →
    assignGo cur sentences = sentences.map (fun s => (cur, s)) := by
  induction sentences with
  | nil => intro cur _; rfl
  | cons s rest ih =>
      intro cur h
      have hs : matchSection s = none := h s (by simp)
      simp [assignGo, hs, ih cur (fun t ht => h t (by simp [ht]))]

theorem bucketStr_self (cur : String) (l : List String) :
    bucketStr cur (l.map (fun s => (cur, s))) =
      String.join (l.map (fun s => s ++ " ")) := by
  induction l with
  | nil => rfl
  | cons s rest ih =>
      simp only [List.map_cons, bucketStr, if_true]
      rw [ih, join_cons]

theorem bucketStr_other {k cur : String} (hk : k ≠ cur) (l : List String) :
    bucketStr k (l.map (fun s => (cur, s))) = "" := by
  induction l with
  | nil => rfl
  | cons s rest ih =>
      simp only [List.map_cons, bucketStr, if_neg (Ne.symm hk), ih]

theorem lookup_init_sections {k : String} (hk : k ∈ sectionKeys) :
    List.lookup k (section_headers.map (fun p => (p.1, ""))) = some "" := by
  simp only [sectionKeys, section_headers, List.map_cons, List.map_nil,
    List.mem_cons, List.not_mem_nil, or_false] at hk
  rcases hk with rfl | rfl | rfl | rfl | rfl | rfl | rfl <;> rfl

/-- C1 (amended): the segmenter partitions the tokenized sentence sequence —
every sentence is assigned to exactly one of the seven sections, assignments
follow the input order, and each section's accumulated text is exactly its
assigned sentences in original order, each with a trailing space. (The
original claim's stronger reading — that the concatenation of the buckets in
declared section order equals the sentences in original global order — is
refuted by `c1_declared_order_concat_ne`.) -/
theorem c1_section_partition (sentences : List String) :
    (assignments sentences).map Prod.snd = sentences ∧
    (∀ p ∈ assignments sentences, p.1 ∈ sectionKeys) ∧
    (∀ k ∈ sectionKeys,
      List.lookup k (split_into_sections sentences) =
        some (bucketStr k (assignments sentences))) := by
  refine ⟨assignGo_map_snd sentences "Title",
    assignGo_fst_mem sentences "Title" (by decide), ?_⟩
  intro k hk
  rw [split_into_sections, splitGo_lookup, lookup_init_sections hk]
  simp [assignments, String.empty_append]

/-- C1 (counterexample to the claim as stated): when the cursor returns to an
earlier section, concatenating the section-map values in declared order does
not reproduce the sentences in original order. -/
theorem c1_declared_order_concat_ne :
    concatSections (split_into_sections ["Results A.", "Title B."]) ≠
      String.join (["Results A.", "Title B."].map (fun s => s ++ " ")) := by
  decide

theorem c1_section_partition_w :
    List.lookup "Results" (split_into_sections ["Results A.", "Title B."]) =
      some (bucketStr "Results" (assignments ["Results A.", "Title B."])) :=
  (c1_section_partition ["Results A.", "Title B."]).2.2 "Results" (by decide)

/-- C4: if no tokenized sentence contains any section keyword, every sentence
stays in the Title bucket (the initial cursor value) and every other
section's accumulated text is empty. -/
theorem c4_all_title (sentences : List String)
    (h : ∀ s ∈ sentences, matchSection s = none) :
    List.lookup "Title" (split_into_sections sentences) =
      some (String.join (sentences.map (fun s => s ++ " "))) ∧
    ∀ k ∈ sectionKeys, k ≠ "Title" →
      List.lookup k (split_into_sections sentences) = some "" := by
  have hassign : assignGo "Title" sentences =
      sentences.map (fun s => ("Title", s)) := assignGo_of_no_match sentences "Title" h
  constructor
  · rw [split_into_sections, splitGo_lookup, lookup_init_sections (by decide),
      hassign, bucketStr_self]
    simp [String.empty_append]
  · intro k hk hkt
    rw [split_into_sections, splitGo_lookup, lookup_init_sections hk,
      hassign, bucketStr_other hkt]
    simp

theorem c4_all_title_w :
    List.lookup "Title" (split_into_sections ["Hello there.", "Nothing special."]) =
      some (String.join (["Hello there.", "Nothing special."].map (fun s => s ++ " "))) :=
  (c4_all_title ["Hello there.", "Nothing special."] (by decide)).1

/-- C8: on the spec's example sentence sequence the segmenter puts sentences
1, 2 and 5 in Methods, sentence 3 in Results and sentence 4 in Discussion,
and the cursor moves exactly as the claim describes: to Methods at sentence
1, unchanged at sentence 2, to Results at sentence 3, to Discussion at
sentence 4, and back to Methods at sentence 5. -/
theorem c8_example_segmentation :
    split_into_sections
      ["This paper presents Methods.", "We used X.", "Results show Y improved.",
       "In Discussion, Z holds.", "Methods section reviewed again."] =
      [("Title", ""), ("Abstract", ""), ("Introduction", ""),
       ("Methods",
        "This paper presents Methods. We used X. Methods section reviewed again. "),
       ("Results", "Results show Y improved. "),
       ("Discussion", "In Discussion, Z holds. "),
       ("Conclusion", "")] ∧
    matchSection "This paper presents Methods." = some "Methods" ∧
    matchSection "We used X." = none ∧
    matchSection "Results show Y improved." = some "Results" ∧
    matchSection "In Discussion, Z holds." = some "Discussion" ∧
    matchSection "Methods section reviewed again." = some "Methods" := by
  decide

/-- C10: for every input, the section map has exactly the seven fixed keys in
declared order (a section that receives no sentence is present with the
empty string), and every non-empty value ends with a trailing space. -/
theorem c10_fixed_keys (sentences : List String) :
    (split_into_sections sentences).map Prod.fst =
      ["Title", "Abstract", "Introduction", "Methods", "Results", "Discussion",
       "Conclusion"] ∧
    ∀ p ∈ split_into_sections sentences, p.2 = "" ∨ endsWithSpace p.2 = true := by
  constructor
  · rw [split_into_sections, splitGo_map_fst]; rfl
  · exact splitGo_endsWithSpace sentences "Title" _ (by decide)

theorem c10_fixed_keys_w :
    (("Methods", "Methods here. ") : String × String).2 = "" ∨
      endsWithSpace (("Methods", "Methods here. ") : String × String).2 = true :=
  (c10_fixed_keys ["Methods here."]).2 ("Methods", "Methods here. ") (by decide)

theorem toList_mk (l : List Char) : (String.mk l).toList = l := rfl

/-- C5: the output of the text cleaner contains only ASCII letters, digits,
the punctuation marks kept by the final substitution pass, and whitespace —
whatever the five leading metadata passes did to the input. -/
theorem c5_clean_charset (metaPasses : String → String) (text : String) :
    (clean_text metaPasses text).toList.all isAllowedChar = true := by
  rw [List.all_eq_true]
  intro c hc
  simp only [clean_text, pyStrip, removeDisallowed, toList_mk,
    List.mem_reverse] at hc
  have hc2 := (List.dropWhile_sublist isPySpace).subset hc
  rw [List.mem_reverse] at hc2
  have hc3 := (List.dropWhile_sublist isPySpace).subset hc2
  exact (List.mem_filter.mp hc3).2

/-! ## First-match-wins structure of the section matcher -/

theorem find_first_le {α : Type} (p : α → Bool) :
    ∀ (l : List α) (i : Nat) (hi : i < l.length), p (l.get ⟨i, hi⟩) = true →
    ∃ j, ∃ hj : j < l.length, j ≤ i ∧ l.find? p = some (l.get ⟨j, hj⟩) ∧
      p (l.get ⟨j, hj⟩) = true ∧
      ∀ j', ∀ hj' : j' < l.length, j' < j → p (l.get ⟨j', hj'⟩) = false := by
  intro l
  induction l with
  | nil => intro i hi; simp at hi
  | cons a l ih =>
      intro i hi hp
      cases hpa : p a with
      | true =>
          refine ⟨0, by simp, Nat.zero_le _, ?_, by simpa using hpa, ?_⟩
          · simp [List.find?, hpa]
          · intro j' hj' hlt; omega
      | false =>
          cases i with
          | zero =>
              simp only [List.get] at hp
              rw [hpa] at hp
              cases hp
          | succ i' =>
              have hi' : i' < l.length := by simpa using hi
              have hp' : p (l.get ⟨i', hi'⟩) = true := by
                simpa [List.get_cons_succ] using hp
              obtain ⟨j, hj, hle, hfind, hpj, hmin⟩ := ih i' hi' hp'
              refine ⟨j + 1, by simpa using hj, by omega, ?_, ?_, ?_⟩
              · simp [List.find?, hpa, hfind, List.get_cons_succ]
              · simpa [List.get_cons_succ] using hpj
              · intro j' hj' hlt
                cases j' with
                | zero => simpa using hpa
                | succ j'' =>
                    have : j'' < l.length := by simpa using hj'
                    have := hmin j'' this (by omega)
                    simpa [List.get_cons_succ] using this

/-- C3: the sentence loop is first-match-wins over the declared order —
whenever the section at position `i` matches a sentence, the cursor is set
to a matching section at some position `j ≤ i` and no earlier section
matches (only keyword presence matters, not keyword position); in
particular a sentence containing both the substrings results and discussion
is never assigned to Discussion, and is assigned to Results whenever no
section before Results in the declared order also matches. -/
theorem c3_first_match_wins (sentence : String) :
    (∀ i, ∀ hi : i < section_headers.length,
        sectionMatches sentence (section_headers.get ⟨i, hi⟩) = true →
        ∃ j, ∃ hj : j < section_headers.length, j ≤ i ∧
          matchSection sentence = some (section_headers.get ⟨j, hj⟩).1 ∧
          sectionMatches sentence (section_headers.get ⟨j, hj⟩) = true ∧
          ∀ j', ∀ hj' : j' < section_headers.length, j' < j →
            sectionMatches sentence (section_headers.get ⟨j', hj'⟩) = false) ∧
    (containsSubstr "results" (strToLower sentence) = true →
     containsSubstr "discussion" (strToLower sentence) = true →
     matchSection sentence ≠ some "Discussion" ∧
     ((∀ p ∈ section_headers.take 4, sectionMatches sentence p = false) →
       matchSection sentence = some "Results")) := by
  have hgen : ∀ i, ∀ hi : i < section_headers.length,
      sectionMatches sentence (section_headers.get ⟨i, hi⟩) = true →
      ∃ j, ∃ hj : j < section_headers.length, j ≤ i ∧
        matchSection sentence = some (section_headers.get ⟨j, hj⟩).1 ∧
        sectionMatches sentence (section_headers.get ⟨j, hj⟩) = true ∧
        ∀ j', ∀ hj' : j' < section_headers.length, j' < j →
          sectionMatches sentence (section_headers.get ⟨j', hj'⟩) = false := by
    intro i hi hm
    obtain ⟨j, hj, hle, hfind, hpj, hmin⟩ :=
      find_first_le (sectionMatches sentence) section_headers i hi hm
    exact ⟨j, hj, hle, by simp [matchSection, hfind], hpj, hmin⟩
  refine ⟨hgen, fun hres hdis => ?_⟩
  have hres4 : sectionMatches sentence (section_headers.get ⟨4, by decide⟩) = true := by
    show sectionMatches sentence ("Results", ["results", "findings"]) = true
    simp [sectionMatches, hres]
  obtain ⟨j, hj, hle, hfind, hpj, hmin⟩ := hgen 4 (by decide) hres4
  constructor
  · rw [hfind]
    intro hcon
    interval_cases j
    · rw [show (section_headers.get ⟨0, hj⟩).1 = "Title" from rfl] at hcon
      exact absurd hcon (by decide)
    · rw [show (section_headers.get ⟨1, hj⟩).1 = "Abstract" from rfl] at hcon
      exact absurd hcon (by decide)
    · rw [show (section_headers.get ⟨2, hj⟩).1 = "Introduction" from rfl] at hcon
      exact absurd hcon (by decide)
    · rw [show (section_headers.get ⟨3, hj⟩).1 = "Methods" from rfl] at hcon
      exact absurd hcon (by decide)
    · rw [show (section_headers.get ⟨4, hj⟩).1 = "Results" from rfl] at hcon
      exact absurd hcon (by decide)
  · intro h4
    have hj4 : j = 4 := by
      by_contra hne
      have hjlt : j < 4 := by omega
      have hfalse : sectionMatches sentence (section_headers.get ⟨j, hj⟩) = false := by
        interval_cases j
        · exact h4 ("Title", ["title"]) (by decide)
        · exact h4 ("Abstract", ["abstract"]) (by decide)
        · exact h4 ("Introduction", ["introduction"]) (by decide)
        · exact h4 ("Methods", ["methods", "methodology", "materials & methods"])
            (by decide)
      rw [hfalse] at hpj
      cases hpj
    subst hj4
    rw [hfind]
    rfl

theorem c3_first_match_wins_w :
    matchSection "Our results and discussion follow." = some "Results" :=
  ((c3_first_match_wins "Our results and discussion follow.").2
    (by decide) (by decide)).2 (by decide)

/-- C9: the dispatch table sends Methods and Results to the extractive
strategy and Introduction, Discussion and Conclusion to the abstractive
one, and every section name outside the table — in particular Title and
Abstract — falls back to the extractive default. -/
theorem c9_dispatch_table :
    strategyFor "Methods" = Strategy.extractive ∧
    strategyFor "Results" = Strategy.extractive ∧
    strategyFor "Introduction" = Strategy.abstractive ∧
    strategyFor "Discussion" = Strategy.abstractive ∧
    strategyFor "Conclusion" = Strategy.abstractive ∧
    strategyFor "Title" = Strategy.extractive ∧
    strategyFor "Abstract" = Strategy.extractive ∧
    ∀ sec, sec ∉ summarization_strategy.map Prod.fst →
      strategyFor sec = Strategy.extractive := by
  refine ⟨rfl, rfl, rfl, rfl, rfl, rfl, rfl, ?_⟩
  intro sec hsec
  have hnone : summarization_strategy.find? (fun p => p.1 = sec) = none := by
    rw [List.find?_eq_none]
    intro x hx
    simp only [decide_eq_true_eq]
    intro h
    exact hsec (h ▸ List.mem_map_of_mem Prod.fst hx)
  simp [strategyFor, hnone]

theorem c9_dispatch_table_w :
    strategyFor "Appendix" = Strategy.extractive :=
  c9_dispatch_table.2.2.2.2.2.2.2 "Appendix" (by decide)

/-- C2 (amended): there is no exception handler in `summarize_sections`, so
a failure of the extractive path on one section is not caught locally: it
propagates out of the whole traversal, no summary map at all is produced,
and the remaining sections (the arbitrary `rest`) are never processed. -/
theorem c2_error_propagates (extr abst : String → Except SumError String)
    (sec content : String) (rest : List (String × String)) (e : SumError)
    (hne : ¬ pyStrip content = "")
    (hstrat : strategyFor sec = Strategy.extractive)
    (herr : extr content = Except.error e) :
    summarize_sections extr abst ((sec, content) :: rest) = Except.error e := by
  simp [summarize_sections, hne, hstrat, herr]

theorem c2_error_propagates_w :
    summarize_sections (fun _ => Except.error SumError.insufficientContent)
      (fun _ => Except.ok "")
      [("Methods", "the the"), ("Results", "Novel findings described.")] =
      Except.error SumError.insufficientContent :=
  c2_error_propagates _ _ "Methods" "the the"
    [("Results", "Novel findings described.")] SumError.insufficientContent
    (by decide) rfl rfl

/-- Splitting a character list at spaces, used by the concrete vectorizer
stand-in below. -/
def splitOnSpaceChars : List Char → List (List Char)
  | [] => [[]]
  | c :: rest =>
      match splitOnSpaceChars rest with
      | [] => [[c]]
      | w :: ws => if c = ' ' then [] :: w :: ws else (c :: w) :: ws

/-- Word tokens of a string the way sklearn's default `token_pattern` sees
them: lower-cased, punctuation dropped, only tokens of at least two
characters kept. -/
def tokensOf (s : String) : List String :=
  ((splitOnSpaceChars (strToLower s).toList).map
    (fun w => String.mk (w.filter Char.isAlphanum))).filter
    (fun w => 2 ≤ w.toList.length)

/-- A few of sklearn's built-in english stop words, enough to exercise the
empty-vocabulary failure on concrete inputs. -/
def englishStop : List String :=
  ["the", "an", "of", "and", "to", "in", "we", "our", "is"]

/-- Concrete executable stand-in for the external
`TfidfVectorizer(stop_words='english').fit_transform(...).sum(axis=1)`
pipeline, used to instantiate the `tfidf` parameter at concrete inputs: it
fails exactly when no document contributes a non-stop-word token (sklearn's
empty-vocabulary error, the spec's `InsufficientContentError`), and
otherwise scores each sentence by its surviving token count. -/
def mockTfidf (docs : List String) : Except SumError (List ℚ) :=
  let terms := ((docs.map tokensOf).flatten).filter
    (fun w => !(englishStop.contains w))
  if terms.isEmpty then Except.error SumError.insufficientContent
  else Except.ok (docs.map (fun d =>
    (((tokensOf d).filter (fun w => !(englishStop.contains w))).length : ℚ)))

/-- C2 (counterexample to the claim as stated): with the extractive path
instantiated at a concrete vectorizer, a Methods section whose only tokens
are stop words makes the whole run return an error — the failing section is
not simply omitted, and the following Results section is never summarized,
contradicting "the whole run is not aborted". -/
theorem c2_local_catch_refuted :
    summarize_sections
      (fun content => extractive_summary (fun t => [t]) mockTfidf content 3)
      (fun _ => Except.ok "")
      [("Methods", "Of the."), ("Results", "Novel fingerprint evaluation.")] =
      Except.error SumError.insufficientContent := rfl

/-- C7: on a successful run, every key of the summary map is a key of the
section map whose content was non-blank, and a section whose content strips
to empty contributes no entry at all to the summary map. -/
theorem c7_summary_keys (extr abst : String → Except SumError String)
    (sections : List (String × String)) :
    ∀ summaries, (sections.map Prod.fst).Nodup →
    summarize_sections extr abst sections = Except.ok summaries →
    (∀ p ∈ summaries, ∃ c, (p.1, c) ∈ sections ∧ ¬ pyStrip c = "") ∧
    (∀ k c, (k, c) ∈ sections → pyStrip c = "" → ∀ p ∈ summaries, p.1 ≠ k) := by
  induction sections with
  | nil =>
      intro summaries _ hok
      obtain rfl : summaries = [] := by
        simpa [summarize_sections] using hok.symm
      exact ⟨by simp, by simp⟩
  | cons hd rest ih =>
      obtain ⟨sec, content⟩ := hd
      intro summaries hnd hok
      rw [List.map_cons, List.nodup_cons] at hnd
      obtain ⟨hnd1, hnd2⟩ := hnd
      by_cases hblank : pyStrip content = ""
      · simp only [summarize_sections, if_pos hblank] at hok
        obtain ⟨ih1, ih2⟩ := ih summaries hnd2 hok
        constructor
        · intro p hp
          obtain ⟨c, hc, hcb⟩ := ih1 p hp
          exact ⟨c, List.mem_cons_of_mem _ hc, hcb⟩
        · intro k c hkc hcb p hp
          rcases List.mem_cons.mp hkc with heq | hkr
          · injection heq with h1 h2
            subst h1
            obtain ⟨c', hc', hcb'⟩ := ih1 p hp
            intro hpk
            refine hnd1 ?_
            simpa [hpk] using List.mem_map_of_mem Prod.fst hc'
          · exact ih2 k c hkr hcb p hp
      · simp only [summarize_sections, if_neg hblank] at hok
        cases hcall : (match strategyFor sec with
                       | Strategy.extractive => extr content
                       | Strategy.abstractive => abst content) with
        | error e =>
            rw [hcall] at hok
            cases hok
        | ok s =>
            rw [hcall] at hok
            cases hrest : summarize_sections extr abst rest with
            | error e =>
                rw [hrest] at hok
                simp only [Except.map] at hok
                cases hok
            | ok m =>
                rw [hrest] at hok
                simp only [Except.map] at hok
                obtain rfl : summaries = (sec, s) :: m := by
                  simpa using hok.symm
                obtain ⟨ih1, ih2⟩ := ih m hnd2 hrest
                constructor
                · intro p hp
                  rcases List.mem_cons.mp hp with rfl | hpm
                  · exact ⟨content, List.mem_cons_self _ _, hblank⟩
                  · obtain ⟨c, hc, hcb⟩ := ih1 p hpm
                    exact ⟨c, List.mem_cons_of_mem _ hc, hcb⟩
                · intro k c hkc hcb p hp
                  rcases List.mem_cons.mp hkc with heq | hkr
                  · injection heq with h1 h2
                    subst h1
                    subst h2
                    exact absurd hcb hblank
                  · rcases List.mem_cons.mp hp with rfl | hpm
                    · intro hpk
                      refine hnd1 ?_
                      simpa [← hpk] using List.mem_map_of_mem Prod.fst hkr
                    · exact ih2 k c hkr hcb p hpm

theorem c7_summary_keys_w :
    (("Methods", "S") : String × String).1 ≠ "Title" :=
  ((c7_summary_keys (fun _ => Except.ok "S") (fun _ => Except.ok "S")
      [("Title", " "), ("Methods", "Some methods text.")] [("Methods", "S")]
      (by decide) rfl).2 "Title" " " (by decide) (by decide))
    ("Methods", "S") (by decide)

/-! ## Ranking structure of the extractive summary -/

theorem topIndices_subset_range (scores : List ℚ) (k : Nat) :
    topIndices scores k ⊆ List.range scores.length := by
  intro i hi
  exact List.mem_mergeSort.mp (List.take_subset k _ hi)

theorem topIndices_nodup (scores : List ℚ) (k : Nat) :
    (topIndices scores k).Nodup := by
  have hL : (((List.range scores.length).mergeSort
      (fun i j => decide (scores.getD j 0 ≤ scores.getD i 0))).Nodup) :=
    ((List.mergeSort_perm _ _).symm).nodup (List.nodup_range _)
  exact List.Nodup.sublist (List.take_sublist _ _) hL

theorem selIndices_mem (scores : List ℚ) (k i : Nat) :
    i ∈ selIndices scores k ↔ i ∈ topIndices scores k :=
  List.mem_mergeSort

theorem selIndices_length (scores : List ℚ) (k : Nat) :
    (selIndices scores k).length = min k scores.length := by
  simp [selIndices, topIndices, List.length_mergeSort, List.length_take,
    List.length_range]

theorem selIndices_sorted (scores : List ℚ) (k : Nat) :
    List.Sorted (· < ·) (selIndices scores k) := by
  have hs := @List.sorted_mergeSort Nat (fun i j => decide (i ≤ j))
    (fun a b c hab hbc =>
      decide_eq_true (Nat.le_trans (of_decide_eq_true hab) (of_decide_eq_true hbc)))
    (fun a b => by
      simp only [Bool.or_eq_true, decide_eq_true_eq]
      exact Nat.le_total a b)
    (topIndices scores k)
  have hnd : (selIndices scores k).Nodup :=
    ((List.mergeSort_perm _ _).symm).nodup (topIndices_nodup scores k)
  exact (hs.and hnd).imp
    (fun h => lt_of_le_of_ne (of_decide_eq_true h.1) h.2)

theorem topIndices_score_ge (scores : List ℚ) (k : Nat) :
    ∀ i ∈ topIndices scores k, ∀ j, j < scores.length →
      j ∉ topIndices scores k → scores.getD j 0 ≤ scores.getD i 0 := by
  intro i hi j hj hjn
  have hpair := @List.sorted_mergeSort Nat
    (fun i j => decide (scores.getD j 0 ≤ scores.getD i 0))
    (fun a b c hab hbc =>
      decide_eq_true (le_trans (of_decide_eq_true hbc) (of_decide_eq_true hab)))
    (fun a b => by
      simp only [Bool.or_eq_true, decide_eq_true_eq]
      exact le_total (scores.getD b 0) (scores.getD a 0))
    (List.range scores.length)
  rw [← List.take_append_drop k ((List.range scores.length).mergeSort
    (fun i j => decide (scores.getD j 0 ≤ scores.getD i 0)))] at hpair
  obtain ⟨-, -, hcross⟩ := List.pairwise_append.mp hpair
  have hjL : j ∈ (List.range scores.length).mergeSort
      (fun i j => decide (scores.getD j 0 ≤ scores.getD i 0)) :=
    List.mem_mergeSort.mpr (List.mem_range.mpr hj)
  rw [← List.take_append_drop k ((List.range scores.length).mergeSort
    (fun i j => decide (scores.getD j 0 ≤ scores.getD i 0))),
    List.mem_append] at hjL
  rcases hjL with hjtake | hjdrop
  · exact absurd hjtake hjn
  · exact of_decide_eq_true (hcross i hi j hjdrop)

/-- C6: with at least three sentences in the section, the extractive summary
is exactly the space-join of the sentences at `selIndices scores 3`; those
indices are three in number, strictly ascending (so the selected sentences
keep their original relative order), within range, and every unselected
sentence scores no higher than any selected one (top-K by total score). -/
theorem c6_topk_order (sentTok : String → List String)
    (tfidf : List String → Except SumError (List ℚ))
    (text : String) (scores : List ℚ)
    (hok : tfidf (sentTok text) = Except.ok scores)
    (hlen : scores.length = (sentTok text).length)
    (hk : 3 ≤ (sentTok text).length) :
    extractive_summary sentTok tfidf text 3 =
      Except.ok (String.intercalate " "
        ((selIndices scores 3).map (fun i => (sentTok text).getD i ""))) ∧
    (selIndices scores 3).length = 3 ∧
    List.Sorted (· < ·) (selIndices scores 3) ∧
    (∀ i ∈ selIndices scores 3, i < (sentTok text).length) ∧
    (∀ j, j < (sentTok text).length → j ∉ selIndices scores 3 →
      ∀ i ∈ selIndices scores 3, scores.getD j 0 ≤ scores.getD i 0) := by
  refine ⟨?_, ?_, selIndices_sorted scores 3, ?_, ?_⟩
  · simp [extractive_summary, hok, Except.map]
  · rw [selIndices_length, hlen]
    omega
  · intro i hi
    have hr := topIndices_subset_range scores 3 ((selIndices_mem scores 3 i).mp hi)
    rw [← hlen]
    exact List.mem_range.mp hr
  · intro j hj hjn i hi
    refine topIndices_score_ge scores 3 i ((selIndices_mem scores 3 i).mp hi) j ?_ ?_
    · rw [hlen]
      exact hj
    · intro hc
      exact hjn ((selIndices_mem scores 3 j).mpr hc)

theorem c6_topk_order_w : (selIndices [1, 2, 3] 3).length = 3 :=
  (c6_topk_order (fun _ => ["a", "b", "c"]) (fun _ => Except.ok [1, 2, 3]) "x"
    [1, 2, 3] rfl rfl (by decide)).2.1
